import Mathlib

/-
Verification development for the OpenAPI (Swagger v3) operation parser
(`src/v3/parser.ts`).  The parser walks a schema graph expressed through
named `$ref` strings and inline object/array schemas and produces a flat
list of named interfaces plus four top-level type names.

Strings are embedded as `List Char` (`Str`), so that every operation of the
source (prefix tests, substring extraction, concatenation) is an executable
list operation with good proof support.  JavaScript truthiness on optional
strings ("" and undefined are falsy) is made explicit through `truthy`.

The mutual recursion resolveInterface → resolveProperties →
transformInterfaceBody → resolveInterface of the source is embedded with a
fuel parameter that is consumed exactly once per `resolveInterface` step;
`transformGo`/`propertiesGo` are parametrised by the recursive call, so the
whole development is structurally recursive and kernel-computable.  The
wrapper `resolveInterface` supplies fuel `|definitions| + 2`, and the
stabilisation theorem for claim C8 shows any larger fuel gives the same
result, which is the shallow-embedding statement of termination.

The collector of the source is a mutable array into which interfaces are
`unshift`ed (prepended) and whose member `fields` arrays are mutated in
place by the reference-rewrite pass; here the collector is threaded
explicitly, and the in-place mutation of a registered interface's fields is
`updateFieldsAt` at the position where that interface sits (all later
modifications only prepend, so the position is stable, counted from the
back).

`matchRefTypeName`, `duplicate` and `toFirstUpperCase` live in `src/utils`,
which is not part of the provided sources; they are modelled from the spec
and marked as such in their doc comments.
-/

namespace OAPI

/-- Strings of the embedded program, as lists of characters. -/
abbrev Str := List Char

/-- Character data of a Lean string literal. -/
def str (s : String) : Str := s.data

/-- JavaScript truthiness of an optional string: `undefined` and `""` are falsy. -/
def truthy : Option Str → Bool
  | some s => !s.isEmpty
  | none => false

/-- JavaScript truthiness of an optional boolean. -/
def truthyB (o : Option Bool) : Bool := o.getD false

/-- The reference convention `#/components/schemas/<Name>` (source line 5). -/
def definitionPrefix : Str := str "#/components/schemas/"

/-- A schema / definition node: `type`, `format`, `$ref` (called `ref` here),
`description`, nested `items` (for arrays), `properties` (field name ↦ schema,
in declaration order) and `required` (list of field names).  The source uses
the same shape for `Schema` and `Definition`. -/
inductive Schema where
  | mk (type format ref description : Option Str) (items : Option Schema)
       (properties : Option (List (Str × Schema))) (required : Option (List Str)) : Schema

def Schema.type : Schema → Option Str
  | .mk t _ _ _ _ _ _ => t

def Schema.format : Schema → Option Str
  | .mk _ f _ _ _ _ _ => f

def Schema.ref : Schema → Option Str
  | .mk _ _ r _ _ _ _ => r

def Schema.description : Schema → Option Str
  | .mk _ _ _ d _ _ _ => d

def Schema.items : Schema → Option Schema
  | .mk _ _ _ _ i _ _ => i

def Schema.properties : Schema → Option (List (Str × Schema))
  | .mk _ _ _ _ _ p _ => p

def Schema.required : Schema → Option (List Str)
  | .mk _ _ _ _ _ _ r => r

/-- The schema `{}` (all attributes absent). -/
def emptySchema : Schema := Schema.mk none none none none none none none

/-- A resolved interface member (source type `Field`). -/
structure Field where
  name : Str
  optional : Bool
  type : Str
  description : Option Str
  format : Option Str
deriving Repr, DecidableEq

/-- A named interface: ordered fields plus optional description. -/
structure Interface where
  name : Str
  description : Option Str
  fields : List Field
deriving Repr, DecidableEq

/-- The names of the interfaces of a collector, in order. -/
def inames (c : List Interface) : List Str := c.map Interface.name

/-- The definitions table `components.schemas` (`Record<string, Definition>`),
used only through key lookup. -/
abbrev Defs := List (Str × Schema)

/-- Key lookup in a string-keyed record. -/
def lookupA {α : Type} (l : List (Str × α)) (k : Str) : Option α :=
  (l.find? (fun p => p.1 == k)).map (·.2)

/-- `definitions[key]`. -/
def lookupDef (defs : Defs) (k : Str) : Option Schema := lookupA defs k

/-- `javaTypeToTsKeyword` (source lines 7–20): maps a schema to a TS keyword,
`none` meaning `undefined` (unrepresentable). -/
def javaTypeToTsKeyword : Schema → Option Str
  | .mk ty fmt _ _ its _ _ =>
    let t := ty.getD []
    if t == str "file" || fmt == some (str "binary") then some (str "File")
    else if t == str "number" || t == str "integer" then some (str "number")
    else if t == str "string" || t == str "boolean" || t == str "object" then some t
    else if t == str "array" then
      let kw : Option Str :=
        match its with
        | none => none
        | some it =>
          if truthy it.ref then it.ref
          else if truthy it.type then javaTypeToTsKeyword it
          else none
      match kw with
      | none => none
      | some k => if k.isEmpty then none else some (k ++ str "[]")
    else none

/-- Leftmost match of the anchored regex `(\[.*\])?$` used by the source at
lines 30 and 32: split a type string into the part before a trailing
array-bracket suffix and the suffix itself.  A position starts the suffix iff
it holds `[`, the rest of the string contains no newline (`.` does not match
newlines) and the string ends with `]`. -/
def splitRefBase : Str → Str × Str
  | [] => ([], [])
  | c :: rest =>
    if c == '[' && !((c :: rest).contains '\n') && ((c :: rest).getLast? == some ']') then
      ([], c :: rest)
    else
      let pr := splitRefBase rest
      (c :: pr.1, pr.2)

/-- Modelled from the spec: `matchRefTypeName` lives in `src/utils`, which is
not among the provided sources.  Per §4.2 of the spec a reference string has
the form `<prefix><Name>`, optionally followed by an array suffix, and the
function extracts `<Name>`. -/
def matchRefTypeName (pre s : Str) : Str := (splitRefBase s).1.drop pre.length

/-- One step of the field construction loop of `resolveProperties`
(source lines 49–50): the type expression of a property. -/
def propKw (s : Schema) : Option Str :=
  if truthy s.ref then s.ref
  else if truthy s.type then javaTypeToTsKeyword s
  else none

/-- The field construction loop of `resolveProperties` (source lines 48–65):
unrepresentable properties are dropped (with a diagnostic, which the
embedding omits), all others become fields with
`optional = !markRequired || !required.includes(propName)`. -/
def buildBody (props : List (Str × Schema)) (req : List Str) (mr : Bool) : List Field :=
  props.filterMap (fun pr =>
    match propKw pr.2 with
    | none => none
    | some k =>
      if k.isEmpty then none
      else some { name := pr.1, optional := !mr || !(req.contains pr.1), type := k,
                  description := pr.2.description, format := pr.2.format })

/-- The string rewrite of source line 32:
`item.type.replace(/.*?(\[.*\])?$/, matchRefTypeName(prefix, item.type) + "$1")`,
applied to fields whose type starts with the reference root. -/
def rewriteField (f : Field) : Field :=
  if definitionPrefix.isPrefixOf f.type then
    { f with type := matchRefTypeName definitionPrefix f.type ++ (splitRefBase f.type).2 }
  else f

/-- Replace the fields of the interface at the given position (the explicit
form of the in-place mutation of a registered interface's `fields` array). -/
def updateFieldsAt : List Interface → Nat → List Field → List Interface
  | [], _, _ => []
  | it :: rest, 0, b => { it with fields := b } :: rest
  | it :: rest, Nat.succ n, b => it :: updateFieldsAt rest n b

/-- `transformInterfaceBody` (source lines 22–35), parametrised by the
recursive call into `resolveInterface`.  For each field whose type starts
with the reference root: resolve the base reference (type minus any array
suffix) and rewrite the field's type. -/
def transformGo (recurse : Str → List Interface → List Interface) :
    List Field → List Interface → List Field × List Interface
  | [], c => ([], c)
  | f :: rest, c =>
    if definitionPrefix.isPrefixOf f.type then
      let c1 := recurse (splitRefBase f.type).1 c
      let out := transformGo recurse rest c1
      (rewriteField f :: out.1, out.2)
    else
      let out := transformGo recurse rest c
      (f :: out.1, out.2)

/-- `resolveProperties` (source lines 37–74), parametrised by the recursive
call into `resolveInterface`: no `properties` → silent no-op; otherwise build
the fields, register the interface at the front of the collector, run the
rewrite pass, and store the rewritten fields in the registered interface
(the in-place mutation of the source).  The registered interface sits at
distance `|collector at entry|` from the back, because everything after the
registration only prepends. -/
def propertiesGo (recurse : Str → List Interface → List Interface)
    (nm : Str) (dfn : Option Schema) (c : List Interface) (mr : Bool) : List Interface :=
  let d := dfn.getD emptySchema
  match d.properties with
  | none => c
  | some props =>
    let body := buildBody props (d.required.getD []) mr
    let out := transformGo recurse body (⟨nm, d.description, body⟩ :: c)
    updateFieldsAt out.2 (out.2.length - 1 - c.length) out.1

/-- `resolveInterface` (source lines 76–87) with explicit fuel: empty ref →
no-op; an interface with the extracted name already collected → no-op (the
re-entrancy guard); otherwise delegate to `resolveProperties` on
`definitions[ref.substring(prefix.length)]`. -/
def resolveInterfaceF : Nat → Str → Defs → List Interface → Bool → List Interface
  | 0, _, _, c, _ => c
  | Nat.succ f, ref, defs, c, mr =>
    if ref.isEmpty then c
    else
      let nm := matchRefTypeName definitionPrefix ref
      if c.any (fun d => d.name == nm) then c
      else
        propertiesGo (fun r col => resolveInterfaceF f r defs col mr)
          nm (lookupDef defs (ref.drop definitionPrefix.length)) c mr

/-- Fuel sufficient for any resolution against `defs` (proved by the
stabilisation theorem for C8). -/
def fuelFor (defs : Defs) : Nat := defs.length + 2

/-- `resolveInterface` of the source (the fuel is an artifact of the
embedding; stabilisation shows the value is fuel-independent from
`fuelFor defs` on). -/
def resolveInterface (ref : Str) (defs : Defs) (c : List Interface) (mr : Bool) : List Interface :=
  resolveInterfaceF (fuelFor defs) ref defs c mr

/-- `resolveProperties` of the source. -/
def resolveProperties (nm : Str) (dfn : Option Schema) (defs : Defs)
    (c : List Interface) (mr : Bool) : List Interface :=
  propertiesGo (fun r col => resolveInterfaceF (fuelFor defs) r defs col mr) nm dfn c mr

/-- `transformInterfaceBody` of the source; returns the rewritten fields and
the extended collector. -/
def transformInterfaceBody (body : List Field) (defs : Defs) (c : List Interface)
    (mr : Bool) : List Field × List Interface :=
  transformGo (fun r col => resolveInterfaceF (fuelFor defs) r defs col mr) body c

/-- An operation parameter (`ParameterV3`): `name`, `in` (called `inLoc`
here, `in` being reserved), `required?`, `description?`, `schema?`. -/
structure ParameterV3 where
  name : Str
  inLoc : Str
  required : Option Bool
  description : Option Str
  schema : Option Schema

/-- The field a parameter contributes (source lines 104–118): type from
`schema.$ref`, else the primitive mapping of `schema`; unrepresentable
parameters are dropped; `optional = !required`. -/
def mkParamField (p : ParameterV3) : Option Field :=
  let kw : Option Str :=
    match p.schema with
    | none => none
    | some s =>
      if truthy s.ref then s.ref
      else if truthy s.type then javaTypeToTsKeyword s
      else none
  match kw with
  | none => none
  | some k =>
    if k.isEmpty then none
    else some { name := p.name, optional := !truthyB p.required, type := k,
                description := p.description, format := p.schema.bind Schema.format }

/-- The parameter loop of `resolveParameters` (source lines 97–119): for each
parameter, eagerly resolve a truthy `schema.$ref` (markRequired forced true
by the closure `recurse`), then append the parameter's field if representable. -/
def paramsLoop (recurse : Str → List Interface → List Interface) :
    List ParameterV3 → List Interface → List Field → List Interface × List Field
  | [], c, b => (c, b)
  | p :: rest, c, b =>
    let c1 :=
      match p.schema with
      | some s => if truthy s.ref then recurse (s.ref.getD []) c else c
      | none => c
    match mkParamField p with
    | none => paramsLoop recurse rest c1 b
    | some f => paramsLoop recurse rest c1 (b ++ [f])

/-- `resolveParameters` (source lines 89–131): fresh collector, run the
parameter loop, register the synthetic interface at the front iff at least
one field was produced, then run the rewrite pass (markRequired true). -/
def resolveParameters (ifaceName : Str) (params : List ParameterV3) (defs : Defs) :
    List Interface :=
  let recurse := fun r col => resolveInterfaceF (fuelFor defs) r defs col true
  let lp := paramsLoop recurse params [] []
  let c1 := if lp.2.isEmpty then lp.1 else ⟨ifaceName, none, lp.2⟩ :: lp.1
  let out := transformGo recurse lp.2 c1
  if lp.2.isEmpty then out.2
  else updateFieldsAt out.2 (out.2.length - 1 - lp.1.length) out.1

/-- `resolveSchema` (source lines 133–156): array with truthy `items.$ref` →
resolve the element reference, name is `collector.at(-1)?.name`; other array →
primitive array mapping, no interface; otherwise resolve `$ref` or the inline
definition under `defaultName`, name is `collector.at(-1)?.name`. -/
def resolveSchema (schema : Schema) (defs : Defs) (defaultName : Str) :
    List Interface × Option Str :=
  if schema.type == some (str "array") then
    match schema.items with
    | some it =>
      if truthy it.ref then
        let c := resolveInterface (it.ref.getD []) defs [] true
        (c, c.getLast?.map Interface.name)
      else ([], javaTypeToTsKeyword schema)
    | none => ([], javaTypeToTsKeyword schema)
  else
    let c :=
      if truthy schema.ref then resolveInterface (schema.ref.getD []) defs [] true
      else resolveProperties defaultName (some schema) defs [] true
    (c, c.getLast?.map Interface.name)

/-- Index of the first occurrence of `needle` in a string (`indexOf`). -/
def subIndex (needle : Str) : Str → Option Nat
  | [] => if needle.isEmpty then some 0 else none
  | c :: rest =>
    if needle.isPrefixOf (c :: rest) then some 0
    else (subIndex needle rest).map (· + 1)

/-- `parseOperationId` (source lines 158–162): strip everything from the
first `Using` on. -/
def parseOperationId (s : Str) : Str :=
  match subIndex (str "Using") s with
  | none => s
  | some i => s.take i

/-- Modelled from the spec: `toFirstUpperCase` lives in `src/utils`, which is
not among the provided sources.  Per the example of §8 (`getPet` ↦
`GetPetPathVar`) it upper-cases the first character. -/
def toFirstUpperCase : Str → Str
  | [] => []
  | c :: rest => c.toUpper :: rest

/-- Modelled from the spec: `duplicate` lives in `src/utils`, which is not
among the provided sources.  Per §4.6 of the spec it deduplicates the
interface list by name, keeping the first occurrence.  `dedupByName` carries
the set of names already kept. -/
def dedupByName (seen : List Str) : List Interface → List Interface
  | [] => []
  | i :: rest =>
    if seen.contains i.name then dedupByName seen rest
    else i :: dedupByName (i.name :: seen) rest

/-- Modelled from the spec: see `dedupByName`. -/
def duplicate (l : List Interface) : List Interface := dedupByName [] l

/-- Scan to the first unescaped `}` (the lazy `.+?` of the path-variable
regex matches any characters except newline). Returns the matched content
and the remainder after the `}`. -/
def scanRBrace : Str → Option (Str × Str)
  | [] => none
  | c :: rest =>
    if c == '}' then some ([], rest)
    else if c == '\n' then none
    else
      match scanRBrace rest with
      | some pr => some (c :: pr.1, pr.2)
      | none => none

/-- Worker for `extractPathVars`, structurally recursive on a fuel that
bounds the string length (each step consumes at least one character). -/
def extractGo : Nat → Str → List Str
  | 0, _ => []
  | _, [] => []
  | Nat.succ n, c :: rest =>
    if c == '{' then
      match rest with
      | [] => []
      | c2 :: rest2 =>
        if c2 == '\n' then extractGo n rest
        else
          match scanRBrace rest2 with
          | some pr => (c2 :: pr.1) :: extractGo n pr.2
          | none => extractGo n rest
    else extractGo n rest

/-- `path.match(/\{(.+?)\}/g)` of source line 205, with the braces stripped
from each match: the path-template variable names. -/
def extractPathVars (s : Str) : List Str := extractGo s.length s

/-- A `{schema}` media-type object list, i.e. the `content` mapping of a
request body or response. -/
structure ContentHolder where
  content : Option (List (Str × Option Schema))

/-- An operation object (`RequestDefinitionV3`). -/
structure RequestDefinitionV3 where
  operationId : Str
  summary : Option Str
  description : Option Str
  parameters : Option (List ParameterV3)
  requestBody : Option ContentHolder
  responses : List (Str × ContentHolder)

/-- `components` of the document. -/
structure ComponentsV3 where
  schemas : Defs

/-- The parsed specification document (`SwaggerV3`). -/
structure SwaggerV3 where
  paths : List (Str × List (Str × RequestDefinitionV3))
  components : ComponentsV3

/-- The aggregate result of one parse (`ParseResult`). -/
structure ParseResult where
  name : Str
  comment : Str
  body : Option Str
  isFormData : Bool
  pathVar : Option Str
  query : Option Str
  res : Option Str
  interfaces : List Interface
deriving Repr, DecidableEq

/-- The query-parameter filter of `resolveQuery` (source lines 173–177):
`in === 'query'` and the name is not a path variable. -/
def queryFilterParams (pathVars : List Str) (dfn : RequestDefinitionV3) : List ParameterV3 :=
  (dfn.parameters.getD []).filter (fun p => p.inLoc == str "query" && !(pathVars.contains p.name))

/-- The path-parameter filter of `resolvePath` (source line 191):
`in === 'path'` or the name is a path variable. -/
def pathFilterParams (pathVars : List Str) (dfn : RequestDefinitionV3) : List ParameterV3 :=
  (dfn.parameters.getD []).filter (fun p => p.inLoc == str "path" || pathVars.contains p.name)

/-- `resolveQuery` (source lines 164–180). -/
def resolveQuery (pathVars : List Str) (dfn : RequestDefinitionV3) (defs : Defs) :
    List Interface :=
  resolveParameters (toFirstUpperCase (parseOperationId dfn.operationId) ++ str "Query")
    (queryFilterParams pathVars dfn) defs

/-- `resolvePath` (source lines 182–194). -/
def resolvePath (pathVars : List Str) (dfn : RequestDefinitionV3) (defs : Defs) :
    List Interface :=
  resolveParameters (toFirstUpperCase (parseOperationId dfn.operationId) ++ str "PathVar")
    (pathFilterParams pathVars dfn) defs

/-- `[summary, description].filter(Boolean).join(', ')` of source line 226. -/
def joinComment (a b : Option Str) : Str :=
  List.intercalate (str ", ") (([a, b].filterMap id).filter (fun s => !s.isEmpty))

/-- The first declared content schema: `Object.values(content || {})[0]?.schema || {}`. -/
def firstContentSchema (h : Option ContentHolder) : Schema :=
  ((((h.bind ContentHolder.content).getD []).head?).bind Prod.snd).getD emptySchema

/-- The operation parser (source lines 196–238). -/
def parser (sw : SwaggerV3) (path method : Str) : Option ParseResult :=
  let defs := sw.components.schemas
  match (lookupA sw.paths path).bind (fun mp => lookupA mp method) with
  | none => none
  | some dfn =>
    let pathVars := extractPathVars path
    let pathVarTypes := resolvePath pathVars dfn defs
    let queryTypes := resolveQuery pathVars dfn defs
    let bodyOut := resolveSchema (firstContentSchema dfn.requestBody) defs (str "RequestBody")
    let resOut := resolveSchema (firstContentSchema (lookupA dfn.responses (str "200")))
      defs (str "ResponseBody")
    some {
      name := parseOperationId dfn.operationId
      comment := joinComment dfn.summary dfn.description
      body := bodyOut.2
      isFormData :=
        (((dfn.requestBody.bind ContentHolder.content).getD []).head?.map Prod.fst)
          == some (str "multipart/form-data")
      pathVar := (pathVarTypes.getLast?).map Interface.name
      query := (queryTypes.getLast?).map Interface.name
      res := resOut.2
      interfaces := duplicate (pathVarTypes ++ queryTypes ++ bodyOut.1 ++ resOut.1) }

/-! Abstract properties of a recursive-resolution function, used to run the
mutual induction over the fuel once and reuse it everywhere. -/

/-- The resolver only prepends to the collector, and every prepended
interface carries a fresh name (the re-entrancy guard ran against the live
collector before each registration). -/
def RGrow (recurse : Str → List Interface → List Interface) : Prop :=
  ∀ r c, ∃ a, recurse r c = a ++ c ∧ (inames a).Nodup ∧ ∀ n ∈ inames a, n ∉ inames c

/-- A reference whose definition is absent resolves to a no-op. -/
def RNoDef (defs : Defs) (recurse : Str → List Interface → List Interface) : Prop :=
  ∀ r c, lookupDef defs (r.drop definitionPrefix.length) = none → recurse r c = c

/-- Every name in the output collector was already there, is the extracted
name of the argument reference, or has a definition in the table. -/
def RNames (defs : Defs) (recurse : Str → List Interface → List Interface) : Prop :=
  ∀ r c n, n ∈ inames (recurse r c) →
    n ∈ inames c ∨ n = matchRefTypeName definitionPrefix r ∨ lookupDef defs n ≠ none

/-- The re-entrancy guard: a collected name is never re-resolved. -/
def RGuard (recurse : Str → List Interface → List Interface) : Prop :=
  ∀ r c, matchRefTypeName definitionPrefix r ∈ inames c → recurse r c = c

/-- A reference string with no trailing array suffix (what
`transformInterfaceBody` passes down after splitting). -/
def Stripped (r : Str) : Prop := splitRefBase r = (r, [])

/-- Number of definition keys not yet collected: the potential that bounds
the recursion depth of reference resolution. -/
def phi (defs : Defs) (c : List Interface) : Nat :=
  (((defs.map Prod.fst).dedup).filter (fun k => !(decide (k ∈ inames c)))).length

/-- `resolveInterfaceF` at fixed fuel, table and markRequired flag. -/
def intRec (fuel : Nat) (defs : Defs) (mr : Bool) : Str → List Interface → List Interface :=
  fun r c => resolveInterfaceF fuel r defs c mr

/-! Concrete inputs used by witnesses and counterexamples. -/

/-- A `string` schema. -/
def strSchema : Schema := Schema.mk (some (str "string")) none none none none none none

/-- An `integer` schema. -/
def intSchema : Schema := Schema.mk (some (str "integer")) none none none none none none

/-- A bare `$ref` schema. -/
def refSchema (r : String) : Schema := Schema.mk none none (some (str r)) none none none none

/-- The `Pet` definition of the spec's §8 example: two required properties. -/
def petSchema : Schema :=
  Schema.mk none none none none none
    (some [(str "name", strSchema), (str "age", intSchema)])
    (some [str "name", str "age"])

/-- Definitions table holding only `Pet`. -/
def petDefs : Defs := [(str "Pet", petSchema)]

/-- The `GET /pets/{id}` operation of the spec's §8 example. -/
def getPetOp : RequestDefinitionV3 where
  operationId := str "getPetUsingGET"
  summary := none
  description := none
  parameters := some [{ name := str "id", inLoc := str "path", required := some true,
                        description := none, schema := some intSchema }]
  requestBody := none
  responses := [(str "200",
    ⟨some [(str "application/json", some (refSchema "#/components/schemas/Pet"))]⟩)]

/-- The document of the spec's §8 example. -/
def petDoc : SwaggerV3 where
  paths := [(str "/pets/{id}", [(str "get", getPetOp)])]
  components := ⟨petDefs⟩

/-- The expected parse result for the §8 example. -/
def petResult : ParseResult where
  name := str "getPet"
  comment := []
  body := none
  isFormData := false
  pathVar := some (str "GetPetPathVar")
  query := none
  res := some (str "Pet")
  interfaces :=
    [⟨str "GetPetPathVar", none, [⟨str "id", false, str "number", none, none⟩]⟩,
     ⟨str "Pet", none, [⟨str "name", false, str "string", none, none⟩,
                        ⟨str "age", false, str "number", none, none⟩]⟩]

/-- Table where `A` has a property referencing `B` (nested registration). -/
def defsAB : Defs :=
  [(str "A", Schema.mk none none none none none
      (some [(str "b", refSchema "#/components/schemas/B")]) none),
   (str "B", Schema.mk none none none none none
      (some [(str "x", strSchema)]) none)]

/-- A schema that is a bare reference to `A`. -/
def schemaRefA : Schema := refSchema "#/components/schemas/A"

/-- A cyclic table: `A` and `B` reference each other by name. -/
def defsCyc : Defs :=
  [(str "A", Schema.mk none none none none none
      (some [(str "b", refSchema "#/components/schemas/B")]) none),
   (str "B", Schema.mk none none none none none
      (some [(str "a", refSchema "#/components/schemas/A")]) none)]

/-- A field holding a reference to a name with no definition. -/
def missingField : Field :=
  { name := str "a", optional := true, type := str "#/components/schemas/Missing",
    description := none, format := none }

/-- A document whose only operation is registered under the lower-case
method key `get`. -/
def methodDoc : SwaggerV3 where
  paths := [(str "/a", [(str "get",
    { operationId := str "op", summary := none, description := none, parameters := none,
      requestBody := none, responses := [] })])]
  components := ⟨[]⟩

/-- A parameter declared `in: query` whose name `id` can also appear as a
path variable. -/
def mixedParam : ParameterV3 where
  name := str "id"
  inLoc := str "query"
  required := some false
  description := none
  schema := some intSchema

/-- An operation with `mixedParam` as its only parameter. -/
def mixedOp : RequestDefinitionV3 where
  operationId := str "getPetUsingGET"
  summary := none
  description := none
  parameters := some [mixedParam]
  requestBody := none
  responses := []

/-- A `required: true` path parameter. -/
def reqParam : ParameterV3 where
  name := str "id"
  inLoc := str "path"
  required := some true
  description := none
  schema := some intSchema

/-- An array-of-reference response schema. -/
def arrayOfPet : Schema :=
  Schema.mk (some (str "array")) none none none
    (some (refSchema "#/components/schemas/Pet")) none none

/-- An array-of-number response schema. -/
def arrayOfNumber : Schema :=
  Schema.mk (some (str "array")) none none none
    (some (Schema.mk (some (str "number")) none none none none none none)) none none

/-! Basic lemmas about the small helper functions. -/

@[simp] theorem inames_nil : inames [] = [] := rfl

@[simp] theorem inames_cons (i : Interface) (c : List Interface) :
    inames (i :: c) = i.name :: inames c := rfl

@[simp] theorem inames_append (a b : List Interface) :
    inames (a ++ b) = inames a ++ inames b := List.map_append _ _ _

theorem any_name_eq (c : List Interface) (nm : Str) :
    (c.any fun d => d.name == nm) = true ↔ nm ∈ inames c := by
  rw [List.any_eq_true]
  unfold inames
  rw [List.mem_map]
  constructor
  · rintro ⟨d, hd, he⟩
    rw [beq_iff_eq] at he
    exact ⟨d, hd, he⟩
  · rintro ⟨d, hd, he⟩
    exact ⟨d, hd, by rw [beq_iff_eq]; exact he⟩

theorem updateFieldsAt_append (a : List Interface) (x : Interface) (c : List Interface)
    (b : List Field) :
    updateFieldsAt (a ++ x :: c) a.length b = a ++ { x with fields := b } :: c := by
  induction a with
  | nil => rfl
  | cons h t ih => simpa [updateFieldsAt] using ih

theorem inames_updateFieldsAt (l : List Interface) (i : Nat) (b : List Field) :
    inames (updateFieldsAt l i b) = inames l := by
  induction l generalizing i with
  | nil => rfl
  | cons h t ih =>
    cases i with
    | zero => simp [updateFieldsAt]
    | succ n => simp [updateFieldsAt, ih]

theorem contains_append (a b : Str) (x : Char) :
    (a ++ b).contains x = (a.contains x || b.contains x) := by
  induction a with
  | nil => simp
  | cons c rest ih => simp [List.contains_cons, ih, Bool.or_assoc]

theorem splitRefBase_append : ∀ s : Str, (splitRefBase s).1 ++ (splitRefBase s).2 = s := by
  intro s
  induction s with
  | nil => rfl
  | cons c rest ih =>
    simp only [splitRefBase]
    split
    · simp
    · simpa using ih

theorem splitRefBase_snd_spec : ∀ s : Str,
    (splitRefBase s).2 = [] ∨
      ((∃ t, (splitRefBase s).2 = '[' :: t) ∧ (splitRefBase s).2.contains '\n' = false ∧
        (splitRefBase s).2.getLast? = some ']') := by
  intro s
  induction s with
  | nil => left; rfl
  | cons c rest ih =>
    simp only [splitRefBase]
    split
    · rename_i h
      simp only [Bool.and_eq_true, beq_iff_eq, Bool.not_eq_true'] at h
      right
      exact ⟨⟨rest, by rw [h.1.1]⟩, h.1.2, by simpa using h.2⟩
    · exact ih

theorem splitRefBase_base : ∀ s : Str,
    splitRefBase ((splitRefBase s).1) = ((splitRefBase s).1, []) := by
  intro s
  induction s with
  | nil => rfl
  | cons c rest ih =>
    simp only [splitRefBase]
    split
    · rfl
    · rename_i hcond
      have happ := splitRefBase_append rest
      have hsnd := splitRefBase_snd_spec rest
      obtain ⟨b, s2, hsr⟩ : ∃ b s2, splitRefBase rest = (b, s2) := ⟨_, _, rfl⟩
      rw [hsr] at happ hsnd ih ⊢
      dsimp only at happ hsnd ih ⊢
      simp only [splitRefBase]
      split
      · rename_i h2
        exfalso
        apply hcond
        simp only [Bool.and_eq_true, beq_iff_eq, Bool.not_eq_true'] at h2
        rcases hsnd with hnil | ⟨⟨t, ht⟩, hnl, hlast⟩
        · subst hnil
          rw [List.append_nil] at happ
          subst happ
          rw [Bool.and_eq_true, Bool.and_eq_true, beq_iff_eq, Bool.not_eq_true']
          exact ⟨⟨h2.1.1, h2.1.2⟩, by rw [h2.2]; rfl⟩
        · have hs2ne : s2 ≠ [] := by rw [ht]; simp
          rw [Bool.and_eq_true, Bool.and_eq_true, beq_iff_eq, Bool.not_eq_true']
          refine ⟨⟨h2.1.1, ?_⟩, ?_⟩
          · rw [← happ, ← List.cons_append, contains_append, h2.1.2, hnl]
            rfl
          · rw [← happ, ← List.cons_append, List.getLast?_append_of_ne_nil _ hs2ne, hlast]
            rfl
      · rw [ih]

theorem stripped_of_noBracket : ∀ s : Str, s.contains '[' = false → Stripped s := by
  intro s
  induction s with
  | nil => intro _; rfl
  | cons c rest ih =>
    intro h
    rw [List.contains_cons, Bool.or_eq_false_iff] at h
    have hc : (c == '[') = false := by
      rw [beq_eq_false_iff_ne]
      have h1 := h.1
      rw [beq_eq_false_iff_ne] at h1
      exact h1.symm
    have h2 := ih h.2
    unfold Stripped at h2
    unfold Stripped splitRefBase
    rw [hc]
    simp [h2]

theorem matchRef_of_stripped (pre r : Str) (h : Stripped r) :
    matchRefTypeName pre r = r.drop pre.length := by
  unfold matchRefTypeName
  rw [h]

theorem definitionPrefix_noBracket : definitionPrefix.contains '[' = false := by decide

theorem matchRef_append (nmE : Str) (h : nmE.contains '[' = false) :
    matchRefTypeName definitionPrefix (definitionPrefix ++ nmE) = nmE := by
  have hs : Stripped (definitionPrefix ++ nmE) := by
    apply stripped_of_noBracket
    rw [contains_append, definitionPrefix_noBracket, h]
    rfl
  rw [matchRef_of_stripped _ _ hs, List.drop_left]

theorem stripped_base (s : Str) : Stripped ((splitRefBase s).1) :=
  splitRefBase_base s

theorem javaType_ne_nil : ∀ s : Schema, ∀ k, javaTypeToTsKeyword s = some k → k ≠ [] := by
  intro s k h
  rcases s with ⟨ty, fmt, rf, ds, its, pr, rq⟩
  rw [javaTypeToTsKeyword.eq_def] at h
  dsimp only at h
  split at h
  · simp only [Option.some.injEq] at h; subst h; decide
  · split at h
    · simp only [Option.some.injEq] at h; subst h; decide
    · split at h
      · rename_i hcond
        simp only [Option.some.injEq] at h; subst h
        simp only [Bool.or_eq_true, beq_iff_eq] at hcond
        rcases hcond with (h1 | h1) | h1 <;> (rw [h1]; decide)
      · split at h
        · split at h
          · exact absurd h (by simp)
          · split at h
            · exact absurd h (by simp)
            · simp only [Option.some.injEq] at h
              subst h
              intro hx
              rw [List.append_eq_nil] at hx
              exact absurd hx.2 (by decide)
        · exact absurd h (by simp)

theorem rewriteField_name (f : Field) : (rewriteField f).name = f.name := by
  unfold rewriteField; split <;> rfl

theorem rewriteField_optional (f : Field) : (rewriteField f).optional = f.optional := by
  unfold rewriteField; split <;> rfl

/-! The reference-rewrite pass: its fields output, and how it grows the
collector. -/

theorem transformGo_fst (recurse : Str → List Interface → List Interface) :
    ∀ body c, (transformGo recurse body c).1 = body.map rewriteField := by
  intro body
  induction body with
  | nil => intro c; rfl
  | cons f rest ih =>
    intro c
    simp only [transformGo]
    split
    · rename_i hpre
      simp [ih]
    · rename_i hpre
      simp only [List.map_cons, ih]
      rw [rewriteField, if_neg hpre]

theorem transformGo_grow (recurse : Str → List Interface → List Interface)
    (hg : RGrow recurse) :
    ∀ body c, ∃ a, (transformGo recurse body c).2 = a ++ c ∧ (inames a).Nodup ∧
      ∀ n ∈ inames a, n ∉ inames c := by
  intro body
  induction body with
  | nil => intro c; exact ⟨[], rfl, by simp, by simp⟩
  | cons f rest ih =>
    intro c
    simp only [transformGo]
    split
    · obtain ⟨a1, h1, hn1, hf1⟩ := hg (splitRefBase f.type).1 c
      obtain ⟨a2, h2, hn2, hf2⟩ := ih (recurse (splitRefBase f.type).1 c)
      refine ⟨a2 ++ a1, ?_, ?_, ?_⟩
      · rw [h2, h1, List.append_assoc]
      · rw [inames_append, List.nodup_append]
        refine ⟨hn2, hn1, ?_⟩
        intro n hna2 hna1
        have := hf2 n hna2
        rw [h1, inames_append] at this
        exact this (List.mem_append_left _ hna1)
      · intro n hn
        rw [inames_append, List.mem_append] at hn
        rcases hn with hn | hn
        · have := hf2 n hn
          rw [h1, inames_append] at this
          intro hc
          exact this (List.mem_append_right _ hc)
        · exact hf1 n hn
    · exact ih c

theorem transformGo_names (defs : Defs) (recurse : Str → List Interface → List Interface)
    (hnd : RNoDef defs recurse) (hnm : RNames defs recurse) :
    ∀ body c n, n ∈ inames (transformGo recurse body c).2 →
      n ∈ inames c ∨ lookupDef defs n ≠ none := by
  intro body
  induction body with
  | nil => intro c n hn; left; exact hn
  | cons f rest ih =>
    intro c n hn
    simp only [transformGo] at hn
    split at hn
    · rename_i hpre
      rcases ih _ n hn with hin | hdef
      · rcases hnm _ _ _ hin with h | h | h
        · left; exact h
        · by_cases hl :
            lookupDef defs ((splitRefBase f.type).1.drop definitionPrefix.length) = none
          · rw [hnd _ _ hl] at hin
            left; exact hin
          · right
            rw [h, matchRef_of_stripped _ _ (stripped_base f.type)]
            exact hl
        · right; exact h
      · right; exact hdef
    · exact ih c n hn

/-! The property resolver: no-op on absent `properties`, and the exact shape
of its output otherwise. -/

theorem propertiesGo_spec (recurse : Str → List Interface → List Interface)
    (hg : RGrow recurse) (nm : Str) (dfn : Option Schema) (c : List Interface) (mr : Bool) :
    ((dfn.getD emptySchema).properties = none → propertiesGo recurse nm dfn c mr = c) ∧
    (∀ props, (dfn.getD emptySchema).properties = some props →
      ∃ a, propertiesGo recurse nm dfn c mr
          = a ++ ⟨nm, (dfn.getD emptySchema).description,
              (buildBody props ((dfn.getD emptySchema).required.getD []) mr).map rewriteField⟩
            :: c
        ∧ (inames a).Nodup ∧ ∀ n ∈ inames a, n ≠ nm ∧ n ∉ inames c) := by
  constructor
  · intro h
    unfold propertiesGo
    dsimp only
    rw [h]
  · intro props h
    unfold propertiesGo
    dsimp only
    rw [h]
    dsimp only
    obtain ⟨a, ha, hn, hf⟩ := transformGo_grow recurse hg
      (buildBody props ((dfn.getD emptySchema).required.getD []) mr)
      (⟨nm, (dfn.getD emptySchema).description,
        buildBody props ((dfn.getD emptySchema).required.getD []) mr⟩ :: c)
    have hfst := transformGo_fst recurse
      (buildBody props ((dfn.getD emptySchema).required.getD []) mr)
      (⟨nm, (dfn.getD emptySchema).description,
        buildBody props ((dfn.getD emptySchema).required.getD []) mr⟩ :: c)
    refine ⟨a, ?_, hn, ?_⟩
    · rw [hfst, ha]
      have hl : (a ++ ⟨nm, (dfn.getD emptySchema).description,
          buildBody props ((dfn.getD emptySchema).required.getD []) mr⟩ :: c).length - 1
            - c.length = a.length := by
        simp [List.length_append]
      rw [hl, updateFieldsAt_append]
    · intro n hna
      have hmem := hf n hna
      rw [inames_cons] at hmem
      constructor
      · intro he
        exact hmem (by rw [he]; exact List.mem_cons_self _ _)
      · intro hc
        exact hmem (List.mem_cons_of_mem _ hc)

theorem propertiesGo_names (defs : Defs) (recurse : Str → List Interface → List Interface)
    (hnd : RNoDef defs recurse) (hnm : RNames defs recurse) :
    ∀ nm dfn c mr n, n ∈ inames (propertiesGo recurse nm dfn c mr) →
      n ∈ inames c ∨ n = nm ∨ lookupDef defs n ≠ none := by
  intro nm dfn c mr n hn
  unfold propertiesGo at hn
  dsimp only at hn
  split at hn
  · left; exact hn
  · rw [inames_updateFieldsAt] at hn
    rcases transformGo_names defs recurse hnd hnm _ _ n hn with h | h
    · rw [inames_cons] at h
      rcases List.mem_cons.mp h with h | h
      · right; left; exact h
      · left; exact h
    · right; right; exact h

/-! The properties of `resolveInterfaceF`, by induction on the fuel. -/

theorem intPack : ∀ (fuel : Nat) (defs : Defs) (mr : Bool),
    RGrow (intRec fuel defs mr) ∧ RNoDef defs (intRec fuel defs mr) ∧
      RNames defs (intRec fuel defs mr) ∧ RGuard (intRec fuel defs mr) := by
  intro fuel
  induction fuel with
  | zero =>
    intro defs mr
    refine ⟨?_, ?_, ?_, ?_⟩
    · intro r c; exact ⟨[], rfl, by simp, by simp⟩
    · intro r c _; rfl
    · intro r c n hn; left; exact hn
    · intro r c _; rfl
  | succ f ih =>
    intro defs mr
    obtain ⟨ihg, ihnd, ihnm, ihguard⟩ := ih defs mr
    refine ⟨?_, ?_, ?_, ?_⟩
    · intro r c
      show ∃ a, resolveInterfaceF (f + 1) r defs c mr = a ++ c ∧ _
      simp only [resolveInterfaceF]
      split
      · exact ⟨[], rfl, by simp, by simp⟩
      · split
        · exact ⟨[], rfl, by simp, by simp⟩
        · rename_i hguard
          have hnm : matchRefTypeName definitionPrefix r ∉ inames c := by
            intro hmem
            exact hguard ((any_name_eq _ _).mpr hmem)
          rcases hprops : ((lookupDef defs (r.drop definitionPrefix.length)).getD
              emptySchema).properties with _ | props
          · exact ⟨[], (propertiesGo_spec
              (fun r col => resolveInterfaceF f r defs col mr) ihg
              (matchRefTypeName definitionPrefix r)
              (lookupDef defs (r.drop definitionPrefix.length)) c mr).1 hprops,
              by simp, by simp⟩
          · obtain ⟨a, ha, hn, hf⟩ := (propertiesGo_spec
              (fun r col => resolveInterfaceF f r defs col mr) ihg
              (matchRefTypeName definitionPrefix r)
              (lookupDef defs (r.drop definitionPrefix.length)) c mr).2 props hprops
            refine ⟨a ++ [⟨matchRefTypeName definitionPrefix r,
              ((lookupDef defs (r.drop definitionPrefix.length)).getD
                emptySchema).description,
              (buildBody props (((lookupDef defs (r.drop definitionPrefix.length)).getD
                emptySchema).required.getD []) mr).map rewriteField⟩], ?_, ?_, ?_⟩
            · rw [ha, List.append_assoc, List.singleton_append]
            · rw [inames_append, List.nodup_append]
              refine ⟨hn, by simp, ?_⟩
              intro n hna hnb
              simp only [inames_cons, inames_nil, List.mem_singleton] at hnb
              exact (hf n hna).1 hnb
            · intro n hmem
              rw [inames_append] at hmem
              rcases List.mem_append.mp hmem with h | h
              · exact (hf n h).2
              · simp only [inames_cons, inames_nil, List.mem_singleton] at h
                rw [h]; exact hnm
    · intro r c hl
      show resolveInterfaceF (f + 1) r defs c mr = c
      simp only [resolveInterfaceF]
      split
      · rfl
      · split
        · rfl
        · apply (propertiesGo_spec _ ihg _ _ c mr).1
          rw [hl]
          rfl
    · intro r c n hn
      replace hn : n ∈ inames (resolveInterfaceF (f + 1) r defs c mr) := hn
      simp only [resolveInterfaceF] at hn
      split at hn
      · left; exact hn
      · split at hn
        · left; exact hn
        · rcases propertiesGo_names defs _ ihnd ihnm _ _ c mr n hn with h | h | h
          · left; exact h
          · right; left; exact h
          · right; right; exact h
    · intro r c hmem
      show resolveInterfaceF (f + 1) r defs c mr = c
      simp only [resolveInterfaceF]
      split
      · rfl
      · rw [if_pos ((any_name_eq _ _).mpr hmem)]

/-- The success shape of one `resolveInterface` step: non-empty reference,
name not yet collected, definition present with properties — the result is
the registered interface (rewritten fields) preceded by the interfaces its
children registered, all with fresh distinct names. -/
theorem int_success (fuel : Nat) (r : Str) (defs : Defs) (c : List Interface) (mr : Bool)
    (d : Schema) (props : List (Str × Schema))
    (hne : r.isEmpty = false) (hnm : matchRefTypeName definitionPrefix r ∉ inames c)
    (hl : lookupDef defs (r.drop definitionPrefix.length) = some d)
    (hp : d.properties = some props) (hf : 1 ≤ fuel) :
    ∃ a, resolveInterfaceF fuel r defs c mr
        = a ++ ⟨matchRefTypeName definitionPrefix r, d.description,
            (buildBody props (d.required.getD []) mr).map rewriteField⟩ :: c
      ∧ (inames a).Nodup
      ∧ ∀ n ∈ inames a, n ≠ matchRefTypeName definitionPrefix r ∧ n ∉ inames c := by
  obtain ⟨f, rfl⟩ : ∃ f, fuel = f + 1 := ⟨fuel - 1, by omega⟩
  simp only [resolveInterfaceF]
  rw [if_neg (by rw [hne]; exact Bool.false_ne_true)]
  rw [if_neg (fun hh => hnm ((any_name_eq _ _).mp hh))]
  have hspec := (propertiesGo_spec (fun r col => resolveInterfaceF f r defs col mr)
    (intPack f defs mr).1
    (matchRefTypeName definitionPrefix r) (some d) c mr).2 props hp
  rw [hl]
  exact hspec

/-- Any `resolveInterface` step either leaves the collector unchanged or
puts the extracted name in it. -/
theorem int_cases (fuel : Nat) (r : Str) (defs : Defs) (c : List Interface) (mr : Bool) :
    resolveInterfaceF fuel r defs c mr = c ∨
      matchRefTypeName definitionPrefix r ∈ inames (resolveInterfaceF fuel r defs c mr) := by
  cases fuel with
  | zero => left; rfl
  | succ f =>
    simp only [resolveInterfaceF]
    split
    · left; rfl
    · split
      · left; rfl
      · rcases hprops : ((lookupDef defs (r.drop definitionPrefix.length)).getD
            emptySchema).properties with _ | props
        · left
          exact (propertiesGo_spec (fun r col => resolveInterfaceF f r defs col mr)
            (intPack f defs mr).1 (matchRefTypeName definitionPrefix r)
            (lookupDef defs (r.drop definitionPrefix.length)) c mr).1 hprops
        · right
          obtain ⟨a, ha, _, _⟩ := (propertiesGo_spec
            (fun r col => resolveInterfaceF f r defs col mr) (intPack f defs mr).1
            (matchRefTypeName definitionPrefix r)
            (lookupDef defs (r.drop definitionPrefix.length)) c mr).2 props hprops
          rw [ha, inames_append, inames_cons]
          exact List.mem_append_right _ (List.mem_cons_self _ _)

/-- Resolution preserves distinctness of collected names. -/
theorem int_nodup (fuel : Nat) (r : Str) (defs : Defs) (c : List Interface) (mr : Bool)
    (h : (inames c).Nodup) : (inames (resolveInterfaceF fuel r defs c mr)).Nodup := by
  obtain ⟨a, ha, hn, hf⟩ := (intPack fuel defs mr).1 r c
  have ha' : resolveInterfaceF fuel r defs c mr = a ++ c := ha
  rw [ha', inames_append, List.nodup_append]
  exact ⟨hn, h, fun n hna hnc => hf n hna hnc⟩

/-! Stabilisation: with enough fuel, one more unit of fuel does not change
the result of reference resolution.  This is the shallow-embedding statement
that the recursion of the source terminates. -/

theorem resolveInterfaceF_succ (f : Nat) (r : Str) (defs : Defs) (c : List Interface)
    (mr : Bool) :
    resolveInterfaceF (f + 1) r defs c mr =
      if r.isEmpty then c
      else if c.any (fun d => d.name == matchRefTypeName definitionPrefix r) then c
      else propertiesGo (fun r2 col => resolveInterfaceF f r2 defs col mr)
        (matchRefTypeName definitionPrefix r)
        (lookupDef defs (r.drop definitionPrefix.length)) c mr := rfl

theorem filterLenLe (l : List Str) (p q : Str → Bool) (h : ∀ x, p x = true → q x = true) :
    (l.filter p).length ≤ (l.filter q).length := by
  induction l with
  | nil => simp
  | cons a rest ih =>
    rw [List.filter_cons, List.filter_cons]
    cases hp : p a with
    | true =>
      have hq := h a hp
      simp only [hp, hq, if_true, List.length_cons]
      omega
    | false =>
      cases hq : q a with
      | true =>
        simp only [hp, hq, if_true, Bool.false_eq_true, if_false, List.length_cons]
        omega
      | false =>
        simp only [hp, hq, Bool.false_eq_true, if_false]
        exact ih

theorem filterLenLt (l : List Str) (p q : Str → Bool) (h : ∀ x, p x = true → q x = true)
    (a : Str) (hal : a ∈ l) (hpa : p a = false) (hqa : q a = true) :
    (l.filter p).length + 1 ≤ (l.filter q).length := by
  induction l with
  | nil => cases hal
  | cons b rest ih =>
    rw [List.filter_cons, List.filter_cons]
    rcases List.mem_cons.mp hal with rfl | hmem
    · simp only [hpa, hqa, if_true, Bool.false_eq_true, if_false, List.length_cons]
      have := filterLenLe rest p q h
      omega
    · cases hp : p b with
      | true =>
        have hq := h b hp
        simp only [hp, hq, if_true, List.length_cons]
        have := ih hmem
        omega
      | false =>
        cases hq : q b with
        | true =>
          simp only [hp, hq, if_true, Bool.false_eq_true, if_false, List.length_cons]
          have := ih hmem
          omega
        | false =>
          simp only [hp, hq, Bool.false_eq_true, if_false]
          exact ih hmem

theorem lookup_mem {α : Type} (l : List (Str × α)) (k : Str) (v : α)
    (h : lookupA l k = some v) : k ∈ l.map Prod.fst := by
  unfold lookupA at h
  cases hf : l.find? (fun p => p.1 == k) with
  | none => rw [hf] at h; cases h
  | some p =>
    have hp := List.find?_some hf
    have hmem := List.mem_of_find?_eq_some hf
    rw [beq_iff_eq] at hp
    rw [← hp]
    exact List.mem_map.mpr ⟨p, hmem, rfl⟩

theorem phi_le (defs : Defs) (c : List Interface) : phi defs c ≤ defs.length := by
  unfold phi
  calc ((defs.map Prod.fst).dedup.filter _).length
      ≤ (defs.map Prod.fst).dedup.length := List.length_filter_le _ _
    _ ≤ (defs.map Prod.fst).length := (List.dedup_sublist _).length_le
    _ = defs.length := List.length_map _ _

theorem phi_mono (defs : Defs) (c c' : List Interface)
    (h : ∀ n ∈ inames c, n ∈ inames c') : phi defs c' ≤ phi defs c := by
  unfold phi
  apply filterLenLe
  intro x hx
  rw [Bool.not_eq_true', decide_eq_false_iff_not] at hx ⊢
  intro hmem
  exact hx (h x hmem)

theorem phi_dec (defs : Defs) (c : List Interface) (x : Interface) (nm : Str)
    (hkey : nm ∈ defs.map Prod.fst) (hnot : nm ∉ inames c) (hx : x.name = nm) :
    phi defs (x :: c) + 1 ≤ phi defs c := by
  unfold phi
  apply filterLenLt _ _ _ ?_ nm (List.mem_dedup.mpr hkey) ?_ ?_
  · intro k hk
    rw [Bool.not_eq_true', decide_eq_false_iff_not] at hk ⊢
    intro hmem
    exact hk (by rw [inames_cons]; exact List.mem_cons_of_mem _ hmem)
  · rw [Bool.not_eq_false', decide_eq_true_eq, inames_cons, hx]
    exact List.mem_cons_self _ _
  · rw [Bool.not_eq_true', decide_eq_false_iff_not]
    exact hnot

/-- If two resolvers agree on stripped references over collectors that
contain the names of `baseC`, the rewrite pass driven by them produces the
same result from any collector over `baseC`. -/
theorem transformGo_congr (recurse1 recurse2 : Str → List Interface → List Interface)
    (baseC : List Interface) (hg2 : RGrow recurse2)
    (heq : ∀ r' c', Stripped r' → (∀ n ∈ inames baseC, n ∈ inames c') →
      recurse1 r' c' = recurse2 r' c') :
    ∀ body c, (∀ n ∈ inames baseC, n ∈ inames c) →
      transformGo recurse1 body c = transformGo recurse2 body c := by
  intro body
  induction body with
  | nil => intro c _; rfl
  | cons f rest ih =>
    intro c hsub
    simp only [transformGo]
    split
    · rw [heq (splitRefBase f.type).1 c (stripped_base f.type) hsub]
      obtain ⟨a, ha, _, _⟩ := hg2 (splitRefBase f.type).1 c
      have hsub2 : ∀ n ∈ inames baseC, n ∈ inames (recurse2 (splitRefBase f.type).1 c) := by
        intro n hn
        rw [ha, inames_append]
        exact List.mem_append_right _ (hsub n hn)
      rw [ih _ hsub2]
    · rw [ih c hsub]

theorem stabStripped : ∀ (fuel : Nat) (defs : Defs) (mr : Bool) (r : Str)
    (c : List Interface), Stripped r → phi defs c + 1 ≤ fuel →
    resolveInterfaceF (fuel + 1) r defs c mr = resolveInterfaceF fuel r defs c mr := by
  intro fuel
  induction fuel with
  | zero => intro defs mr r c _ h; exact absurd h (by omega)
  | succ f ih =>
    intro defs mr r c hstr hfuel
    rw [resolveInterfaceF_succ, resolveInterfaceF_succ]
    split
    · rfl
    · split
      · rfl
      · rename_i hne hguard
        unfold propertiesGo
        dsimp only
        rcases hprops : ((lookupDef defs (r.drop definitionPrefix.length)).getD
            emptySchema).properties with _ | props
        · rfl
        · dsimp only
          obtain ⟨d, hd⟩ : ∃ d, lookupDef defs (r.drop definitionPrefix.length) = some d := by
            cases hl : lookupDef defs (r.drop definitionPrefix.length) with
            | none =>
              rw [hl] at hprops
              exact Option.noConfusion hprops
            | some d => exact ⟨d, rfl⟩
          have hnotin : matchRefTypeName definitionPrefix r ∉ inames c :=
            fun hm => hguard ((any_name_eq _ _).mpr hm)
          have hkey : matchRefTypeName definitionPrefix r ∈ defs.map Prod.fst := by
            rw [matchRef_of_stripped _ _ hstr]
            exact lookup_mem _ _ _ hd
          set parent : Interface :=
            ⟨matchRefTypeName definitionPrefix r,
              ((lookupDef defs (r.drop definitionPrefix.length)).getD emptySchema).description,
              buildBody props (((lookupDef defs (r.drop definitionPrefix.length)).getD
                emptySchema).required.getD []) mr⟩ with hparent
          have heq : ∀ r' c', Stripped r' →
              (∀ n ∈ inames (parent :: c), n ∈ inames c') →
              resolveInterfaceF (f + 1) r' defs c' mr = resolveInterfaceF f r' defs c' mr := by
            intro r' c' hstr' hsub'
            apply ih defs mr r' c' hstr'
            have h1 : phi defs c' ≤ phi defs (parent :: c) := phi_mono defs _ c' hsub'
            have h2 : phi defs (parent :: c) + 1 ≤ phi defs c :=
              phi_dec defs c parent (matchRefTypeName definitionPrefix r) hkey hnotin rfl
            omega
          have htr := transformGo_congr
            (fun r2 col => resolveInterfaceF (f + 1) r2 defs col mr)
            (fun r2 col => resolveInterfaceF f r2 defs col mr)
            (parent :: c) (intPack f defs mr).1 heq
            (buildBody props (((lookupDef defs (r.drop definitionPrefix.length)).getD
              emptySchema).required.getD []) mr)
            (parent :: c) (fun n hn => hn)
          rw [htr]

theorem stabArb : ∀ (fuel : Nat) (defs : Defs) (mr : Bool) (r : Str) (c : List Interface),
    phi defs c + 2 ≤ fuel →
    resolveInterfaceF (fuel + 1) r defs c mr = resolveInterfaceF fuel r defs c mr := by
  intro fuel defs mr r c hfuel
  obtain ⟨f, rfl⟩ : ∃ f, fuel = f + 1 := ⟨fuel - 1, by omega⟩
  rw [resolveInterfaceF_succ, resolveInterfaceF_succ]
  split
  · rfl
  · split
    · rfl
    · rename_i hne hguard
      unfold propertiesGo
      dsimp only
      rcases hprops : ((lookupDef defs (r.drop definitionPrefix.length)).getD
          emptySchema).properties with _ | props
      · rfl
      · dsimp only
        set parent : Interface :=
          ⟨matchRefTypeName definitionPrefix r,
            ((lookupDef defs (r.drop definitionPrefix.length)).getD emptySchema).description,
            buildBody props (((lookupDef defs (r.drop definitionPrefix.length)).getD
              emptySchema).required.getD []) mr⟩ with hparent
        have heq : ∀ r' c', Stripped r' →
            (∀ n ∈ inames (parent :: c), n ∈ inames c') →
            resolveInterfaceF (f + 1) r' defs c' mr = resolveInterfaceF f r' defs c' mr := by
          intro r' c' hstr' hsub'
          apply stabStripped f defs mr r' c' hstr'
          have h1 : phi defs c' ≤ phi defs (parent :: c) := phi_mono defs _ c' hsub'
          have h2 : phi defs (parent :: c) ≤ phi defs c :=
            phi_mono defs c (parent :: c) (fun n hn => List.mem_cons_of_mem _ hn)
          omega
        have htr := transformGo_congr
          (fun r2 col => resolveInterfaceF (f + 1) r2 defs col mr)
          (fun r2 col => resolveInterfaceF f r2 defs col mr)
          (parent :: c) (intPack f defs mr).1 heq
          (buildBody props (((lookupDef defs (r.drop definitionPrefix.length)).getD
            emptySchema).required.getD []) mr)
          (parent :: c) (fun n hn => hn)
        rw [htr]

theorem stabLim (defs : Defs) (mr : Bool) (r : Str) (c : List Interface) :
    ∀ fuel : Nat, defs.length + 2 ≤ fuel →
    resolveInterfaceF fuel r defs c mr = resolveInterface r defs c mr := by
  intro fuel h
  induction fuel, h using Nat.le_induction with
  | base => rfl
  | succ n hn ih =>
    rw [← ih]
    apply stabArb
    have hp := phi_le defs c
    omega

/-! Properties of the spec-modelled deduplication. -/

theorem dedup_nodup : ∀ (seen : List Str) (l : List Interface),
    (inames (dedupByName seen l)).Nodup ∧
      ∀ n ∈ inames (dedupByName seen l), seen.contains n = false := by
  intro seen l
  induction l generalizing seen with
  | nil => exact ⟨by simp [dedupByName], by simp [dedupByName]⟩
  | cons i rest ih =>
    simp only [dedupByName]
    split
    · exact ih seen
    · rename_i hc
      obtain ⟨hnd, hfr⟩ := ih (i.name :: seen)
      constructor
      · rw [inames_cons, List.nodup_cons]
        refine ⟨?_, hnd⟩
        intro hmem
        have := hfr _ hmem
        rw [List.contains_cons] at this
        simp at this
      · intro n hn
        rw [inames_cons] at hn
        rcases List.mem_cons.mp hn with heq | hn2
        · subst heq
          cases h2 : seen.contains i.name with
          | false => rfl
          | true => exact absurd h2 hc
        · have := hfr n hn2
          rw [List.contains_cons] at this
          exact (Bool.or_eq_false_iff.mp this).2

theorem dedup_find : ∀ (seen : List Str) (l : List Interface) (x : Interface),
    x ∈ dedupByName seen l →
    seen.contains x.name = false ∧ l.find? (fun y => y.name == x.name) = some x := by
  intro seen l
  induction l generalizing seen with
  | nil => intro x hx; simp [dedupByName] at hx
  | cons i rest ih =>
    intro x hx
    simp only [dedupByName] at hx
    split at hx
    · rename_i hc
      obtain ⟨h1, h2⟩ := ih seen x hx
      refine ⟨h1, ?_⟩
      rw [List.find?_cons_of_neg, h2]
      intro hbeq
      rw [beq_iff_eq] at hbeq
      rw [hbeq] at hc
      rw [hc] at h1
      cases h1
    · rename_i hc
      rcases List.mem_cons.mp hx with rfl | hx2
      · refine ⟨?_, ?_⟩
        · cases h2 : seen.contains x.name with
          | false => rfl
          | true => exact absurd h2 hc
        · rw [List.find?_cons_of_pos]
          simp
      · obtain ⟨h1, h2⟩ := ih (i.name :: seen) x hx2
        rw [List.contains_cons, Bool.or_eq_false_iff] at h1
        refine ⟨h1.2, ?_⟩
        rw [List.find?_cons_of_neg, h2]
        intro hbeq
        rw [beq_iff_eq] at hbeq
        have := h1.1
        rw [beq_eq_false_iff_ne] at this
        exact this hbeq.symm

theorem dedup_covers : ∀ (seen : List Str) (l : List Interface) (y : Interface),
    y ∈ l → seen.contains y.name = false →
    ∃ x ∈ dedupByName seen l, x.name = y.name := by
  intro seen l
  induction l generalizing seen with
  | nil => intro y hy; cases hy
  | cons i rest ih =>
    intro y hy hs
    simp only [dedupByName]
    split
    · rename_i hc
      rcases List.mem_cons.mp hy with heq | hy2
      · subst heq
        rw [hs] at hc
        cases hc
      · exact ih seen y hy2 hs
    · rename_i hc
      rcases List.mem_cons.mp hy with heq | hy2
      · subst heq
        exact ⟨y, List.mem_cons_self _ _, rfl⟩
      · by_cases hname : y.name = i.name
        · exact ⟨i, List.mem_cons_self _ _, hname.symm⟩
        · have hseen : (i.name :: seen).contains y.name = false := by
            rw [List.contains_cons, Bool.or_eq_false_iff]
            exact ⟨by rw [beq_eq_false_iff_ne]; exact hname, hs⟩
          obtain ⟨x, hx1, hx2⟩ := ih (i.name :: seen) y hy2 hseen
          exact ⟨x, List.mem_cons_of_mem _ hx1, hx2⟩

theorem duplicate_nodup (l : List Interface) : (inames (duplicate l)).Nodup :=
  (dedup_nodup [] l).1

theorem duplicate_find (l : List Interface) (x : Interface) (h : x ∈ duplicate l) :
    l.find? (fun y => y.name == x.name) = some x :=
  (dedup_find [] l x h).2

theorem duplicate_covers (l : List Interface) (y : Interface) (h : y ∈ l) :
    ∃ x ∈ duplicate l, x.name = y.name :=
  dedup_covers [] l y h rfl

/-! Properties of the parameter resolver. -/

theorem paramsLoop_snd (recurse : Str → List Interface → List Interface) :
    ∀ (params : List ParameterV3) (c : List Interface) (b : List Field),
    (paramsLoop recurse params c b).2 = b ++ params.filterMap mkParamField := by
  intro params
  induction params with
  | nil => intro c b; simp [paramsLoop]
  | cons p rest ih =>
    intro c b
    simp only [paramsLoop]
    cases hm : mkParamField p with
    | none =>
      dsimp only
      rw [ih, List.filterMap_cons_none hm]
    | some f =>
      dsimp only
      rw [ih, List.filterMap_cons_some hm]
      simp

theorem mkParamField_spec (p : ParameterV3) (f : Field) (h : mkParamField p = some f) :
    f.name = p.name ∧ f.optional = !truthyB p.required := by
  unfold mkParamField at h
  dsimp only at h
  split at h
  · cases h
  · split at h
    · cases h
    · rw [Option.some.injEq] at h
      subst h
      exact ⟨rfl, rfl⟩

/-- The shape of `resolveParameters` when at least one field was produced:
the synthetic interface (with rewritten fields) is present in the result. -/
theorem resolveParameters_shape (ifaceName : Str) (params : List ParameterV3) (defs : Defs)
    (hne : (paramsLoop (fun r col => resolveInterfaceF (fuelFor defs) r defs col true)
      params [] []).2 ≠ []) :
    ∃ a rest, resolveParameters ifaceName params defs
      = a ++ ⟨ifaceName, none,
          ((paramsLoop (fun r col => resolveInterfaceF (fuelFor defs) r defs col true)
            params [] []).2).map rewriteField⟩ :: rest := by
  unfold resolveParameters
  dsimp only
  have hbe : (paramsLoop (fun r col => resolveInterfaceF (fuelFor defs) r defs col true)
      params [] []).2.isEmpty = false := by
    cases hh : (paramsLoop (fun r col => resolveInterfaceF (fuelFor defs) r defs col true)
        params [] []).2.isEmpty with
    | false => rfl
    | true => exact absurd (List.isEmpty_iff.mp hh) hne
  rw [hbe]
  simp only [Bool.false_eq_true, if_false]
  obtain ⟨a, ha, _, _⟩ := transformGo_grow
    (fun r col => resolveInterfaceF (fuelFor defs) r defs col true)
    (intPack (fuelFor defs) defs true).1
    ((paramsLoop (fun r col => resolveInterfaceF (fuelFor defs) r defs col true)
      params [] []).2)
    (⟨ifaceName, none,
      (paramsLoop (fun r col => resolveInterfaceF (fuelFor defs) r defs col true)
        params [] []).2⟩
      :: (paramsLoop (fun r col => resolveInterfaceF (fuelFor defs) r defs col true)
        params [] []).1)
  have hfst := transformGo_fst
    (fun r col => resolveInterfaceF (fuelFor defs) r defs col true)
    ((paramsLoop (fun r col => resolveInterfaceF (fuelFor defs) r defs col true)
      params [] []).2)
    (⟨ifaceName, none,
      (paramsLoop (fun r col => resolveInterfaceF (fuelFor defs) r defs col true)
        params [] []).2⟩
      :: (paramsLoop (fun r col => resolveInterfaceF (fuelFor defs) r defs col true)
        params [] []).1)
  rw [hfst, ha]
  have hlen : (a ++ ⟨ifaceName, none,
      (paramsLoop (fun r col => resolveInterfaceF (fuelFor defs) r defs col true)
        params [] []).2⟩
      :: (paramsLoop (fun r col => resolveInterfaceF (fuelFor defs) r defs col true)
        params [] []).1).length - 1
      - ((paramsLoop (fun r col => resolveInterfaceF (fuelFor defs) r defs col true)
        params [] []).1).length = a.length := by
    simp [List.length_append]
  rw [hlen, updateFieldsAt_append]
  exact ⟨a, _, rfl⟩

/-- The reference root prepended to anything is a non-empty string. -/
theorem defPre_append_isEmpty (nmE : Str) : (definitionPrefix ++ nmE).isEmpty = false := rfl

/-- Truthiness of a prefixed reference string. -/
theorem truthy_defPre (nmE : Str) : truthy (some (definitionPrefix ++ nmE)) = true := by
  show (!(definitionPrefix ++ nmE).isEmpty) = true
  rw [defPre_append_isEmpty]
  rfl

/-- Every list is empty or ends in a last element, and `getLast?` names it. -/
theorem lastOrEmpty (c : List Interface) :
    (∃ a p, c = a ++ [p] ∧ c.getLast?.map Interface.name = some p.name) ∨
      (c = [] ∧ c.getLast?.map Interface.name = none) := by
  rcases List.eq_nil_or_concat c with rfl | ⟨a, p, rfl⟩
  · right; exact ⟨rfl, rfl⟩
  · left
    refine ⟨a, p, List.concat_eq_append _ _, ?_⟩
    rw [List.concat_eq_append, List.getLast?_concat]
    rfl

/-- With pairwise distinct names, at most one collector entry matches any
given name. -/
theorem filter_name_le_one (l : List Interface) (h : (inames l).Nodup) (nm : Str) :
    (l.filter (fun d => d.name == nm)).length ≤ 1 := by
  induction l with
  | nil => simp
  | cons i rest ih =>
    rw [inames_cons, List.nodup_cons] at h
    rw [List.filter_cons]
    cases hb : (i.name == nm) with
    | false =>
      simp only [Bool.false_eq_true, if_false]
      exact ih h.2
    | true =>
      rw [beq_iff_eq] at hb
      simp only [if_true, List.length_cons]
      have hrest : rest.filter (fun d => d.name == nm) = [] := by
        rw [List.filter_eq_nil_iff]
        intro j hj hjb
        rw [beq_iff_eq] at hjb
        exact h.1 (List.mem_map.mpr ⟨j, hj, by rw [hjb, ← hb]⟩)
      rw [hrest]
      simp

/-! Claim theorems. -/

/-- C1: for every reference name, definitions table and collector (with the
parse-call invariant that collected names are distinct), any number of
`resolveInterface` calls on the same reference leaves at most one interface
with the extracted name in the collector; once one call has run, every
further call is a no-op, so iterating k ≥ 1 times equals calling once. -/
theorem resolveInterface_idempotent (ref : Str) (defs : Defs) (mr : Bool)
    (c : List Interface) (h : (inames c).Nodup) :
    (∀ k : Nat,
      ((((fun col => resolveInterface ref defs col mr)^[k] c).filter
        (fun d => d.name == matchRefTypeName definitionPrefix ref)).length) ≤ 1) ∧
    (∀ k : Nat, 1 ≤ k →
      (fun col => resolveInterface ref defs col mr)^[k] c
        = resolveInterface ref defs c mr) := by
  have hnod : ∀ k, (inames ((fun col => resolveInterface ref defs col mr)^[k] c)).Nodup := by
    intro k
    induction k with
    | zero => exact h
    | succ n ih =>
      rw [Function.iterate_succ_apply']
      exact int_nodup _ _ _ _ _ ih
  have hstep : ∀ c', resolveInterface ref defs (resolveInterface ref defs c' mr) mr
      = resolveInterface ref defs c' mr := by
    intro c'
    rcases int_cases (fuelFor defs) ref defs c' mr with h1 | h1
    · unfold resolveInterface
      rw [h1]
      exact h1
    · exact (intPack (fuelFor defs) defs mr).2.2.2 ref _ h1
  constructor
  · intro k
    exact filter_name_le_one _ (hnod k) _
  · intro k hk
    induction k with
    | zero => omega
    | succ n ih =>
      rw [Function.iterate_succ_apply']
      cases n with
      | zero => rw [Function.iterate_zero_apply]
      | succ n2 =>
        rw [ih (by omega)]
        exact hstep c

/-- Witness for C1 at a concrete input: resolving `Pet` twice into an empty
collector leaves one interface named `Pet`, and the second call is a no-op. -/
theorem resolveInterface_idempotent_witness :
    ((((fun col => resolveInterface (str "#/components/schemas/Pet") petDefs col true)^[2]
        []).filter (fun d => d.name
          == matchRefTypeName definitionPrefix (str "#/components/schemas/Pet"))).length) ≤ 1 ∧
    (fun col => resolveInterface (str "#/components/schemas/Pet") petDefs col true)^[2] []
      = resolveInterface (str "#/components/schemas/Pet") petDefs [] true :=
  ⟨(resolveInterface_idempotent (str "#/components/schemas/Pet") petDefs true []
      List.nodup_nil).1 2,
   (resolveInterface_idempotent (str "#/components/schemas/Pet") petDefs true []
      List.nodup_nil).2 2 (by omega)⟩

/-- C2: whenever the Operation Parser returns a result, its `interfaces`
list carries pairwise distinct names and equals the spec-modelled
deduplication of the four collectors concatenated in the order
path ++ query ++ body ++ response; every kept entry is the first occurrence
of its name in that concatenation, and every name of the concatenation is
represented. -/
theorem parser_interfaces_dedup (sw : SwaggerV3) (p m : Str) (r : ParseResult)
    (h : parser sw p m = some r) :
    ∃ dfn concat,
      (lookupA sw.paths p).bind (fun mp => lookupA mp m) = some dfn ∧
      concat = resolvePath (extractPathVars p) dfn sw.components.schemas
          ++ resolveQuery (extractPathVars p) dfn sw.components.schemas
          ++ (resolveSchema (firstContentSchema dfn.requestBody) sw.components.schemas
              (str "RequestBody")).1
          ++ (resolveSchema (firstContentSchema (lookupA dfn.responses (str "200")))
              sw.components.schemas (str "ResponseBody")).1 ∧
      r.interfaces = duplicate concat ∧
      (inames r.interfaces).Nodup ∧
      (∀ x ∈ r.interfaces, concat.find? (fun y => y.name == x.name) = some x) ∧
      (∀ y ∈ concat, ∃ x ∈ r.interfaces, x.name = y.name) := by
  unfold parser at h
  dsimp only at h
  rcases hL : (lookupA sw.paths p).bind (fun mp => lookupA mp m) with _ | dfn
  · rw [hL] at h
    cases h
  · rw [hL] at h
    dsimp only at h
    rw [Option.some.injEq] at h
    subst h
    refine ⟨dfn, _, rfl, rfl, rfl, ?_, ?_, ?_⟩
    · exact duplicate_nodup _
    · intro x hx
      exact duplicate_find _ x hx
    · intro y hy
      exact duplicate_covers _ y hy

/-- Witness for C2 at the spec's §8 example document. -/
theorem parser_interfaces_dedup_witness : (inames petResult.interfaces).Nodup := by
  obtain ⟨dfn, concat, h1, h2, h3, h4, h5, h6⟩ :=
    parser_interfaces_dedup petDoc (str "/pets/{id}") (str "get") petResult (by decide)
  exact h4

/-- C3: an array response/body schema whose `items.$ref` names a definition
that resolves yields as top-level name the referenced element interface's
name — exactly the name the element interface is registered under, with no
array suffix — while an array of primitives yields the primitive array
mapping of the whole schema and registers no interface. -/
theorem resolveSchema_array (schema : Schema) (defs : Defs) (dn : Str) :
    (∀ it nmE d props, schema.type = some (str "array") → schema.items = some it →
      it.ref = some (definitionPrefix ++ nmE) → nmE ≠ [] → nmE.contains '[' = false →
      lookupDef defs nmE = some d → d.properties = some props →
      (∃ a, (resolveSchema schema defs dn).1
          = a ++ [⟨nmE, d.description,
              (buildBody props (d.required.getD []) true).map rewriteField⟩]) ∧
        (resolveSchema schema defs dn).2 = some nmE) ∧
    (∀ it, schema.type = some (str "array") → schema.items = some it →
      truthy it.ref = false →
      (resolveSchema schema defs dn).1 = [] ∧
      (resolveSchema schema defs dn).2 = javaTypeToTsKeyword schema) := by
  constructor
  · intro it nmE d props hty hit href hne0 hnb hl hp
    have hcol : resolveSchema schema defs dn
        = (resolveInterface (definitionPrefix ++ nmE) defs [] true,
           (resolveInterface (definitionPrefix ++ nmE) defs [] true).getLast?.map
             Interface.name) := by
      unfold resolveSchema
      rw [hty]
      simp only [beq_self_eq_true, if_true]
      rw [hit]
      dsimp only
      rw [href, truthy_defPre]
      simp only [if_true, Option.getD_some]
    have hsucc := int_success (fuelFor defs) (definitionPrefix ++ nmE) defs [] true d props
      (defPre_append_isEmpty nmE) (List.not_mem_nil _)
      (by rw [List.drop_left]; exact hl) hp (by unfold fuelFor; omega)
    obtain ⟨a, ha, _, _⟩ := hsucc
    rw [matchRef_append nmE hnb] at ha
    have ha' : resolveInterface (definitionPrefix ++ nmE) defs [] true
        = a ++ [⟨nmE, d.description,
            (buildBody props (d.required.getD []) true).map rewriteField⟩] := ha
    constructor
    · rw [hcol]
      exact ⟨a, ha'⟩
    · rw [hcol]
      dsimp only
      rw [ha', List.getLast?_concat]
      rfl
  · intro it hty hit hf
    unfold resolveSchema
    rw [hty]
    simp only [beq_self_eq_true, if_true]
    rw [hit]
    dsimp only
    rw [hf]
    exact ⟨rfl, rfl⟩

/-- Witness for C3: an array of `Pet` references yields `res = "Pet"` (no
array suffix), an array of numbers yields `"number[]"` and no interface. -/
theorem resolveSchema_array_witness :
    (resolveSchema arrayOfPet petDefs (str "ResponseBody")).2 = some (str "Pet") ∧
    (resolveSchema arrayOfNumber petDefs (str "ResponseBody")).1 = [] ∧
    (resolveSchema arrayOfNumber petDefs (str "ResponseBody")).2 = some (str "number[]") := by
  have h1 := (resolveSchema_array arrayOfPet petDefs (str "ResponseBody")).1
    (refSchema "#/components/schemas/Pet") (str "Pet") petSchema
    [(str "name", strSchema), (str "age", intSchema)]
    rfl rfl rfl (by decide) (by decide) rfl rfl
  have h2 := (resolveSchema_array arrayOfNumber petDefs (str "ResponseBody")).2
    (Schema.mk (some (str "number")) none none none none none none) rfl rfl rfl
  refine ⟨h1.2, h2.1, ?_⟩
  rw [h2.2]
  rfl

/-- C4 counterexample: registration prepends to the collector, so the most
recently registered interface is the collector's head.  Resolving a schema
that references `A`, whose only property references `B`, registers `A`
first and `B` second, leaving the collector `[B, A]`; the source takes
`collector.at(-1)` and returns `A` — the FIRST-registered interface — not
the last-registered `B`, refuting the claim that the returned name is the
last interface registered during the call. -/
theorem resolveSchema_lastRegistered_cex :
    (resolveSchema schemaRefA defsAB (str "ResponseBody")).1.head?.map Interface.name
        = some (str "B") ∧
    (resolveSchema schemaRefA defsAB (str "ResponseBody")).2 = some (str "A") ∧
    str "A" ≠ str "B" := by decide

/-- C4 amended: the name returned by `resolveSchema` is the name of the
last element of its collector — the FIRST interface registered during the
call (registration prepends), i.e. the top-level interface — or the
primitive array mapping with an empty collector, or absent when nothing was
produced.  In particular for a non-array `$ref` schema whose definition
resolves, the name is the referenced (top-level) interface's name even when
nested references register further interfaces afterwards. -/
theorem resolveSchema_name_spec (schema : Schema) (defs : Defs) (dn : Str) :
    ((∃ a pIface, (resolveSchema schema defs dn).1 = a ++ [pIface] ∧
        (resolveSchema schema defs dn).2 = some pIface.name) ∨
      ((resolveSchema schema defs dn).1 = [] ∧
        ((resolveSchema schema defs dn).2 = none ∨
          (resolveSchema schema defs dn).2 = javaTypeToTsKeyword schema))) ∧
    (∀ nmE d props, (schema.type == some (str "array")) = false →
      schema.ref = some (definitionPrefix ++ nmE) → nmE ≠ [] →
      nmE.contains '[' = false → lookupDef defs nmE = some d →
      d.properties = some props →
      (resolveSchema schema defs dn).2 = some nmE) := by
  constructor
  · unfold resolveSchema
    split
    · split
      · rename_i it hit
        split
        · rcases lastOrEmpty (resolveInterface (it.ref.getD []) defs [] true) with
            ⟨a, pIface, hcp, hlast⟩ | ⟨hnil, hlast⟩
          · left
            exact ⟨a, pIface, hcp, hlast⟩
          · right
            exact ⟨hnil, Or.inl hlast⟩
        · right
          exact ⟨rfl, Or.inr rfl⟩
      · right
        exact ⟨rfl, Or.inr rfl⟩
    · dsimp only
      rcases lastOrEmpty (if truthy schema.ref = true
          then resolveInterface (schema.ref.getD []) defs [] true
          else resolveProperties dn (some schema) defs [] true) with
        ⟨a, pIface, hcp, hlast⟩ | ⟨hnil, hlast⟩
      · left
        exact ⟨a, pIface, hcp, hlast⟩
      · right
        exact ⟨hnil, Or.inl hlast⟩
  · intro nmE d props hty href hne0 hnb hl hp
    have hcol : resolveSchema schema defs dn
        = (resolveInterface (definitionPrefix ++ nmE) defs [] true,
           (resolveInterface (definitionPrefix ++ nmE) defs [] true).getLast?.map
             Interface.name) := by
      unfold resolveSchema
      rw [hty]
      simp only [Bool.false_eq_true, if_false]
      rw [href, truthy_defPre]
      simp only [if_true, Option.getD_some]
    have hsucc := int_success (fuelFor defs) (definitionPrefix ++ nmE) defs [] true d props
      (defPre_append_isEmpty nmE) (List.not_mem_nil _)
      (by rw [List.drop_left]; exact hl) hp (by unfold fuelFor; omega)
    obtain ⟨a, ha, _, _⟩ := hsucc
    rw [matchRef_append nmE hnb] at ha
    have ha' : resolveInterface (definitionPrefix ++ nmE) defs [] true
        = a ++ [⟨nmE, d.description,
            (buildBody props (d.required.getD []) true).map rewriteField⟩] := ha
    rw [hcol]
    dsimp only
    rw [ha', List.getLast?_concat]
    rfl

/-- Witness for C4's amended claim at a table where `A` references `B`:
the returned name is the top-level `A`. -/
theorem resolveSchema_name_spec_witness :
    (resolveSchema schemaRefA defsAB (str "ResponseBody")).2 = some (str "A") :=
  (resolveSchema_name_spec schemaRefA defsAB (str "ResponseBody")).2
    (str "A")
    (Schema.mk none none none none none
      (some [(str "b", refSchema "#/components/schemas/B")]) none)
    [(str "b", refSchema "#/components/schemas/B")]
    rfl rfl (by decide) (by decide) rfl rfl

/-- C5: a field built by the Property Resolver from a definition's
properties is non-optional exactly when `markRequired` is true and its name
is in the definition's `required` list (source line 60). -/
theorem buildBody_optionality (props : List (Str × Schema)) (req : List Str) (mr : Bool)
    (f : Field) (hf : f ∈ buildBody props req mr) :
    f.optional = false ↔ (mr = true ∧ req.contains f.name = true) := by
  unfold buildBody at hf
  obtain ⟨pr, hpr, hsome⟩ := List.mem_filterMap.mp hf
  split at hsome
  · cases hsome
  · split at hsome
    · cases hsome
    · rw [Option.some.injEq] at hsome
      subst hsome
      dsimp only
      constructor
      · intro ho
        rw [Bool.or_eq_false_iff, Bool.not_eq_false', Bool.not_eq_false'] at ho
        exact ho
      · intro hand
        rw [hand.1, hand.2]
        rfl

/-- Witness for C5: in `Pet`, the required property `name` yields a
non-optional field under `markRequired = true`. -/
theorem buildBody_optionality_witness :
    (false = false ↔
      (true = true ∧ ([str "name"].contains
        (⟨str "name", false, str "string", none, none⟩ : Field).name) = true)) :=
  buildBody_optionality [(str "name", strSchema), (str "age", intSchema)] [str "name"] true
    ⟨str "name", false, str "string", none, none⟩ (by decide)

/-- C6 counterexample: a field referencing the undefined name `Missing`
keeps its position and resolution registers nothing, but the rewrite of
source line 32 runs regardless of resolution success, so the field's type
becomes the extracted name `Missing`, NOT the raw reference text
`#/components/schemas/Missing` the claim says it keeps. -/
theorem transform_unresolved_cex :
    transformInterfaceBody [missingField] [] [] true
        = ([{ missingField with type := str "Missing" }], []) ∧
    str "Missing" ≠ str "#/components/schemas/Missing" := by decide

/-- C6 amended: for a field whose `$ref` names a definition absent from the
table, reference resolution is a no-op (no interface with that name is ever
registered, no error), the field is still present after the rewrite pass,
and its type is rewritten to the extracted reference name (the raw prefixed
text does not survive). -/
theorem transform_unresolved_spec (body : List Field) (defs : Defs) (c : List Interface)
    (mr : Bool) (i : Nat) (f : Field) (nmE : Str)
    (hb : body.get? i = some f) (ht : f.type = definitionPrefix ++ nmE)
    (hnb : nmE.contains '[' = false) (hnd : lookupDef defs nmE = none)
    (hc : ∀ itf ∈ c, itf.name ≠ nmE) :
    (transformInterfaceBody body defs c mr).1.get? i = some { f with type := nmE } ∧
    ∀ itf ∈ (transformInterfaceBody body defs c mr).2, itf.name ≠ nmE := by
  have hstr : Stripped (definitionPrefix ++ nmE) := by
    apply stripped_of_noBracket
    rw [contains_append, definitionPrefix_noBracket, hnb]
    rfl
  constructor
  · unfold transformInterfaceBody
    rw [transformGo_fst, List.get?_map, hb]
    have hpre : definitionPrefix.isPrefixOf f.type = true := by
      rw [ht]
      exact List.isPrefixOf_iff_prefix.mpr (List.prefix_append _ _)
    rw [Option.map_some']
    unfold rewriteField
    rw [if_pos hpre, ht, matchRef_append nmE hnb]
    unfold Stripped at hstr
    rw [hstr]
    dsimp only
    rw [List.append_nil]
  · intro itf hitf heq
    have hmem : nmE ∈ inames (transformGo
        (fun r col => resolveInterfaceF (fuelFor defs) r defs col mr) body c).2 := by
      rw [← heq]
      exact List.mem_map.mpr ⟨itf, hitf, rfl⟩
    rcases transformGo_names defs _ (intPack (fuelFor defs) defs mr).2.1
        (intPack (fuelFor defs) defs mr).2.2.1 body c nmE hmem with h | h
    · obtain ⟨itf2, hm2, hname⟩ := List.mem_map.mp h
      exact hc itf2 hm2 hname
    · exact h hnd

/-- Witness for C6's amended claim: the unresolved `Missing` field stays,
with type `Missing`, and no interface named `Missing` is registered. -/
theorem transform_unresolved_spec_witness :
    (transformInterfaceBody [missingField] [] [] true).1.get? 0
      = some { missingField with type := str "Missing" } :=
  (transform_unresolved_spec [missingField] [] [] true 0 missingField (str "Missing")
    rfl rfl (by decide) rfl (by simp)).1

/-- C7 counterexample: the operation exists under the lower-case method key
`get`, and looking it up with the lower-cased method succeeds; but the
parser looks up the method string verbatim — `paths[path]?.[method]`, no
case conversion — so parsing with `GET` yields nothing, refuting "locates
the operation by exact path template and lower-cased HTTP method". -/
theorem parser_method_case_cex :
    parser methodDoc (str "/a") (str "GET") = none ∧
    (parser methodDoc (str "/a") (str "get")).isSome = true := by decide

/-- C7 amended: the parser locates the operation by exact path template and
the method string exactly as given (no case normalisation); it returns a
result precisely when that lookup succeeds, and absence yields `none`, not
an error. -/
theorem parser_lookup_exact (sw : SwaggerV3) (p m : Str) :
    (parser sw p m).isSome
      = ((lookupA sw.paths p).bind (fun mp => lookupA mp m)).isSome := by
  unfold parser
  dsimp only
  rcases h : (lookupA sw.paths p).bind (fun mp => lookupA mp m) with _ | dfn
  · rfl
  · rfl

/-- C8: for every finite definitions table — cyclic reference chains
included — reference resolution terminates: the fuel-indexed approximations
of the recursion stabilise at fuel `|defs| + 2`, so every sufficiently
large fuel computes the same collector (the shallow-embedding statement of
termination in finitely many steps, the re-entrancy guard bounding the
recursion); and the result has no duplicate interface names. -/
theorem resolveInterface_terminates (defs : Defs) (mr : Bool) (c : List Interface)
    (ref : Str) (fuel : Nat) (hfuel : defs.length + 2 ≤ fuel)
    (hnd : (inames c).Nodup) :
    resolveInterfaceF fuel ref defs c mr = resolveInterface ref defs c mr ∧
    (inames (resolveInterface ref defs c mr)).Nodup :=
  ⟨stabLim defs mr ref c fuel hfuel, int_nodup _ _ _ _ _ hnd⟩

/-- Witness for C8 on the cyclic table where `A` and `B` reference each
other: resolution with fuel 50 equals the bounded computation, and the
resulting collector has distinct names. -/
theorem resolveInterface_terminates_witness :
    resolveInterfaceF 50 (str "#/components/schemas/A") defsCyc [] true
      = resolveInterface (str "#/components/schemas/A") defsCyc [] true ∧
    (inames (resolveInterface (str "#/components/schemas/A") defsCyc [] true)).Nodup :=
  resolveInterface_terminates defsCyc true [] (str "#/components/schemas/A") 50
    (by decide) List.nodup_nil

/-- C9: a parameter whose name is a `{brace}` path variable passes the path
filter (which accepts `in === 'path'` OR a name match) even when its `in`
is not `path`, so its field lands in the synthetic path-variable interface
(when representable); and it is excluded from the query filter even when
its `in` is `query`, so the query interface's field list never contains its
name. -/
theorem pathVar_param_routing (pathVars : List Str) (dfn : RequestDefinitionV3)
    (defs : Defs) (p : ParameterV3) (hp : p ∈ dfn.parameters.getD [])
    (hpv : pathVars.contains p.name = true) :
    p ∈ pathFilterParams pathVars dfn ∧
    (∀ q ∈ queryFilterParams pathVars dfn, q.name ≠ p.name) ∧
    (∀ f, mkParamField p = some f →
      ∃ itf ∈ resolvePath pathVars dfn defs,
        itf.name = toFirstUpperCase (parseOperationId dfn.operationId) ++ str "PathVar" ∧
        ∃ g ∈ itf.fields, g.name = p.name) ∧
    (∀ g ∈ (paramsLoop (fun r col => resolveInterfaceF (fuelFor defs) r defs col true)
        (queryFilterParams pathVars dfn) [] []).2, g.name ≠ p.name) := by
  have hmemPath : p ∈ pathFilterParams pathVars dfn := by
    unfold pathFilterParams
    refine List.mem_filter.mpr ⟨hp, ?_⟩
    rw [Bool.or_eq_true]
    right
    exact hpv
  have hquery : ∀ q ∈ queryFilterParams pathVars dfn, q.name ≠ p.name := by
    intro q hq heq
    obtain ⟨_, hq2⟩ := List.mem_filter.mp hq
    rw [Bool.and_eq_true] at hq2
    have h2 := hq2.2
    rw [heq, hpv] at h2
    cases h2
  refine ⟨hmemPath, hquery, ?_, ?_⟩
  · intro f hf
    have hmem : f ∈ (paramsLoop (fun r col => resolveInterfaceF (fuelFor defs) r defs col true)
        (pathFilterParams pathVars dfn) [] []).2 := by
      rw [paramsLoop_snd, List.nil_append]
      exact List.mem_filterMap.mpr ⟨p, hmemPath, hf⟩
    have hnonempty : (paramsLoop
        (fun r col => resolveInterfaceF (fuelFor defs) r defs col true)
        (pathFilterParams pathVars dfn) [] []).2 ≠ [] := by
      intro h0
      rw [h0] at hmem
      cases hmem
    obtain ⟨a, rest2, hshape⟩ := resolveParameters_shape
      (toFirstUpperCase (parseOperationId dfn.operationId) ++ str "PathVar")
      (pathFilterParams pathVars dfn) defs hnonempty
    refine ⟨⟨toFirstUpperCase (parseOperationId dfn.operationId) ++ str "PathVar", none,
      ((paramsLoop (fun r col => resolveInterfaceF (fuelFor defs) r defs col true)
        (pathFilterParams pathVars dfn) [] []).2).map rewriteField⟩, ?_, rfl, ?_⟩
    · show _ ∈ resolvePath pathVars dfn defs
      unfold resolvePath
      rw [hshape]
      exact List.mem_append.mpr (Or.inr (List.mem_cons_self _ _))
    · exact ⟨rewriteField f, List.mem_map.mpr ⟨f, hmem, rfl⟩,
        by rw [rewriteField_name]; exact (mkParamField_spec p f hf).1⟩
  · intro g hg
    rw [paramsLoop_snd, List.nil_append] at hg
    obtain ⟨q, hq, hm⟩ := List.mem_filterMap.mp hg
    rw [(mkParamField_spec q g hm).1]
    exact hquery q hq

/-- Witness for C9: the `in: query` parameter `id`, whose name is a path
variable, is routed into the path filter and the path-variable interface. -/
theorem pathVar_param_routing_witness :
    mixedParam ∈ pathFilterParams [str "id"] mixedOp ∧
    (∃ itf ∈ resolvePath [str "id"] mixedOp [],
      itf.name = toFirstUpperCase (parseOperationId mixedOp.operationId) ++ str "PathVar" ∧
      ∃ g ∈ itf.fields, g.name = mixedParam.name) := by
  have H := pathVar_param_routing [str "id"] mixedOp [] mixedParam
    (List.mem_cons_self _ _) (by decide)
  exact ⟨H.1, H.2.2.1 ⟨str "id", true, str "number", none, none⟩ rfl⟩

/-- C10: every field the Parameter Resolver's loop produces comes from one
of its parameters, and is optional exactly when that parameter's own
`required` flag is falsy (source line 114, `optional: !required`); the
`markRequired` flag and any definition's `required` list do not appear in
the construction (`mkParamField` takes neither). -/
theorem paramField_optionality (recurse : Str → List Interface → List Interface)
    (params : List ParameterV3) (c : List Interface) (g : Field)
    (hg : g ∈ (paramsLoop recurse params c []).2) :
    ∃ p ∈ params, mkParamField p = some g ∧ g.name = p.name ∧
      (g.optional = false ↔ truthyB p.required = true) := by
  rw [paramsLoop_snd, List.nil_append] at hg
  obtain ⟨p, hp, hm⟩ := List.mem_filterMap.mp hg
  obtain ⟨hn, ho⟩ := mkParamField_spec p g hm
  refine ⟨p, hp, hm, hn, ?_⟩
  rw [ho]
  constructor
  · intro h
    rwa [Bool.not_eq_false'] at h
  · intro h
    rw [h]
    rfl

/-- Witness for C10: a `required: true` parameter yields a non-optional
field regardless of any markRequired flag. -/
theorem paramField_optionality_witness :
    ∃ p ∈ [reqParam],
      mkParamField p = some (⟨str "id", false, str "number", none, none⟩ : Field) ∧
      (⟨str "id", false, str "number", none, none⟩ : Field).name = p.name ∧
      ((⟨str "id", false, str "number", none, none⟩ : Field).optional = false
        ↔ truthyB p.required = true) :=
  paramField_optionality (fun _ col => col) [reqParam] []
    ⟨str "id", false, str "number", none, none⟩ (by decide)

end OAPI
